import Mathlib

/-!
The section listing of usql's `metacmd` package.

A shallow embedding of `metacmd/section.go` (the `Listing` routine with its
helpers `rpad`, `add`, `optText` and `max`) followed by theorems about it.

Conventions of the embedding:

* a Go `string` is a Lean `String` (a valid UTF-8 string); `len` is the UTF-8
  byte length, and `<` on strings is the lexicographic order of the code
  points, which on valid UTF-8 coincides with Go's bytewise order;
* a Go `int` is an `Int` (lengths never get near the 64-bit bound);
* a Go panic is `none` in `Option`;
* a Go `map[string]Desc` is the list of its entries in the order in which the
  `range` loop of the call at hand visits them; Go leaves that order
  unspecified, so one and the same map is any permutation of the list, and the
  keys of a map are pairwise distinct (`Nodup`);
* an `io.Writer` is a state type together with a `Write` step that returns the
  new state of the sink and an optional error.
-/

namespace metacmd

/-! ## Data model -/

set_option linter.dupNamespace false

/-- Desc holds information about a command or alias description. -/
structure Desc where
  Desc : String
  Params : String
deriving DecidableEq, Repr

/-- Section is a meta command section (`type Section string`). -/
abbrev Section := String

def SectionGeneral : Section := "General"
def SectionQueryExecute : Section := "Query Execute"
def SectionQueryBuffer : Section := "Query Buffer"
def SectionHelp : Section := "Help"
def SectionTransaction : Section := "Transaction"
def SectionInputOutput : Section := "Input/Output"
def SectionInformational : Section := "Informational"
def SectionFormatting : Section := "Formatting"
def SectionConnection : Section := "Connection"
def SectionOperatingSystem : Section := "Operating System"
def SectionVariables : Section := "Variables"

/-- SectionOrder is the order of sections to display via Listing (the value the
package variable is declared with). -/
def SectionOrder : List Section :=
  [SectionGeneral, SectionQueryExecute, SectionQueryBuffer, SectionHelp,
   SectionInputOutput, SectionInformational, SectionFormatting,
   SectionTransaction,
   SectionConnection, SectionOperatingSystem, SectionVariables]

/-- Modelled from the spec: the identifier of a command, the element type of the
lists held by `sectMap` and the index type of `cmds`; its declaration is not in
`section.go`. -/
abbrev Metacmd := Nat

/-- Modelled from the spec: the command record read by `Listing` through
`cmd.Name`, `cmd.Desc` and `cmd.Aliases`; its declaration is not in
`section.go`. `Aliases` is the `map[string]Desc` of the command, as the list of
its entries in `range` order. -/
structure Cmd where
  Name : String
  Desc : metacmd.Desc
  Aliases : List (String × metacmd.Desc)

/-- Modelled from the spec: the package-level variables `Listing` reads. The
section order is the variable `SectionOrder` of `section.go`; `sectMap`
(section to the commands registered under it, `nil` for an absent key) and
`cmds` (identifier to command record) are declared outside `section.go`; the
lookup `cmds[c]` is total, `sectMap` holding identifiers of `cmds` only. -/
structure Pkg where
  SectionOrder : List Section
  sectMap : Section → List Metacmd
  cmds : Metacmd → Cmd

/-- An `io.Writer`: `Write st p` hands the bytes `p` to the sink in state `st`
and returns the sink's new state and the error, if any. -/
structure Writer (σ : Type) where
  Write : σ → String → σ × Option String

/-! ## Library routines used by `Listing` -/

/-- Go `len` of a string: its length in bytes. -/
def len (s : String) : Int := (s.utf8ByteSize : Int)

/-- Go `<` on strings: the lexicographic order. It is computed on the code
points, which on valid UTF-8 orders strings as comparing their bytes does. -/
def strLess (a b : String) : Bool :=
  decide (a.data < b.data)

/-- Go `strings.Repeat`: panics on a negative count. -/
def Repeat (s : String) (count : Int) : Option String :=
  if count < 0 then none else some (String.join (List.replicate count.toNat s))

/-- Go `unicode.IsSpace`: the code points with the Unicode White_Space property. -/
def isSpace (c : Char) : Bool :=
  let n := c.toNat
  (9 ≤ n && n ≤ 13) || n == 32 || n == 0x85 || n == 0xA0 || n == 0x1680 ||
    (0x2000 ≤ n && n ≤ 0x200A) || n == 0x2028 || n == 0x2029 || n == 0x202F ||
    n == 0x205F || n == 0x3000

/-- Go `strings.TrimSpace`: the string without its leading and trailing white
space. -/
def TrimSpace (s : String) : String :=
  String.mk ((s.data.dropWhile isSpace).reverse.dropWhile isSpace).reverse

/-- Go `strings.ToLower` on ASCII strings, where it maps the bytes `A` to `Z` to
`a` to `z` and leaves the rest alone. Outside ASCII Go consults the Unicode case
tables, which are not reproduced here: `Listing` takes the lowering function as
an argument, and this one is what the concrete evaluations pass. -/
def asciiToLower (s : String) : String :=
  String.mk (s.data.map fun c =>
    if 65 ≤ c.toNat ∧ c.toNat ≤ 90 then Char.ofNat (c.toNat + 32) else c)

/-- The inner loop of Go's `insertionSortLessFunc`: the new element `x` is
swapped leftwards for as long as it is less than its left neighbour. The sorted
prefix is held last element first. -/
def sink {α : Type} (less : α → α → Bool) (x : α) : List α → List α
  | [] => [x]
  | y :: ys => if less x y then y :: sink less x ys else x :: y :: ys

/-- Go `sort.Slice`. Its contract is that the result is a permutation of the
input ordered by `less`, the order of elements that `less` does not separate
being unspecified. The model is `insertionSort_func`, the insertion sort that
every release of Go runs on slices of fewer than 7 elements and Go 1.19 and
later on slices of at most 12; on any slice it differs from what a release
returns at most in the order of elements that `less` does not separate. -/
def sortSlice {α : Type} (less : α → α → Bool) (data : List α) : List α :=
  (data.foldl (fun sorted x => sink less x sorted) []).reverse

/-- Go `fmt.Sprintln` on string operands: the operands separated by single
spaces, then a newline. -/
def Sprintln (a : List String) : String :=
  String.intercalate " " a ++ "\n"

/-- Go `fmt.Fprintln`: one `Write` of the formatted line. -/
def Fprintln {σ : Type} (w : Writer σ) (st : σ) (a : List String) : σ × Option String :=
  w.Write st (Sprintln a)

/-- Go map indexing `m[k]`: the value stored under `k`, the zero value when the
key is absent. -/
def mapIndex (m : List (String × Desc)) (k : String) : Desc :=
  (m.lookup k).getD ⟨"", ""⟩

/-! ## `sort.Slice` on slices where it is more than an insertion sort

Which alias keys `sort.Slice` puts first among keys that `less` does not
separate depends on the release of Go. Two releases of the routine are written
out here as far as the evaluations below need them, index by index as in the
`sort` package, on the slice of strings being sorted. -/

/-- `data.Less(i, j)` of the `sort` package: the caller's `less` on the elements
that are at `i` and `j` now. -/
def Less (less : String → String → Bool) (data : List String) (i j : Nat) : Bool :=
  less (data.getD i "") (data.getD j "")

/-- `data.Swap(i, j)` of the `sort` package. -/
def Swap (data : List String) (i j : Nat) : List String :=
  (data.set i (data.getD j "")).set j (data.getD i "")

/-- Go 1.8 to 1.18, `quickSort_func` on at most 12 elements, the pass with gap 6:
`for i := a + 6; i < b; i++ { if data.Less(i, i-6) { data.Swap(i, i-6) } }`. -/
def gapPass (less : String → String → Bool) (data : List String) : List String :=
  (List.range (data.length - 6)).foldl
    (fun d k => if Less less d (k + 6) k then Swap d (k + 6) k else d) data

/-- Go 1.8 to 1.18, `sort.Slice` on a slice of at most 12 elements: when there
is more than one element, the pass with gap 6 and then `insertionSort_func`.
Longer slices, which that release partitions first, are left out (`none`). -/
def sortSliceQuick (less : String → String → Bool) (data : List String) :
    Option (List String) :=
  if data.length ≤ 12 then
    some (if data.length > 1 then sortSlice less (gapPass less data) else data)
  else none

/-- Go 1.19 and later, `sortedHint`. -/
inductive sortedHint where
  | unknownHint
  | increasingHint
  | decreasingHint
deriving DecidableEq, Repr

/-- Go 1.19 and later, `order2_func`: the indices `a`, `b` so ordered that the
element at the first is not greater than that at the second, with the count of
swaps. -/
def order2 (less : String → String → Bool) (data : List String) (a b swaps : Nat) :
    Nat × Nat × Nat :=
  if Less less data b a then (b, a, swaps + 1) else (a, b, swaps)

/-- Go 1.19 and later, `median_func`: the index of the median of the elements at
`a`, `b`, `c`, with the count of swaps. -/
def median (less : String → String → Bool) (data : List String) (a b c swaps : Nat) :
    Nat × Nat :=
  let r1 := order2 less data a b swaps
  let r2 := order2 less data r1.2.1 c r1.2.2
  let r3 := order2 less data r1.1 r2.1 r2.2.2
  (r3.2.1, r3.2.2)

/-- Go 1.19 and later, `choosePivot_func` on `data[a:b]` of fewer than 50
elements: the element in the middle below 8 elements, the median of three from 8
on; the hint tells whether no swap was counted. -/
def choosePivot (less : String → String → Bool) (data : List String) (a b : Nat) :
    Nat × sortedHint :=
  let l := b - a
  let i := a + l / 4 * 1
  let j := a + l / 4 * 2
  let k := a + l / 4 * 3
  let r := if l ≥ 8 then median less data i j k 0 else (j, 0)
  if r.2 = 0 then (r.1, sortedHint.increasingHint)
  else if r.2 = 4 * 3 then (r.1, sortedHint.decreasingHint)
  else (r.1, sortedHint.unknownHint)

/-- Go 1.19 and later, `partialInsertionSort_func` on `data[a:b]` of fewer than
50 elements: it moves nothing and reports whether no element is less than its
left neighbour. -/
def partialInsertionSort (less : String → String → Bool) (data : List String) (a b : Nat) :
    Bool :=
  (List.range (b - a - 1)).all fun k => !Less less data (a + k + 1) (a + k)

/-- The loop `for i <= j && data.Less(i, a) { i++ }` of `partition_func`; the
first argument bounds the number of steps. -/
def scanUp (less : String → String → Bool) (data : List String) (a j : Nat) :
    Nat → Nat → Nat
  | 0, i => i
  | fuel + 1, i =>
    if i ≤ j ∧ Less less data i a = true then scanUp less data a j fuel (i + 1) else i

/-- The loop `for i <= j && !data.Less(j, a) { j-- }` of `partition_func`; the
first argument bounds the number of steps. -/
def scanDown (less : String → String → Bool) (data : List String) (a i : Nat) :
    Nat → Nat → Nat
  | 0, j => j
  | fuel + 1, j =>
    if i ≤ j ∧ Less less data j a = false then scanDown less data a i fuel (j - 1) else j

/-- The endless `for` loop of `partition_func`, left at `i > j`; it returns the
slice and `j`. The first argument bounds the number of rounds. -/
def partitionLoop (less : String → String → Bool) (a : Nat) :
    Nat → List String → Nat → Nat → List String × Nat
  | 0, data, _, j => (data, j)
  | fuel + 1, data, i, j =>
    let i1 := scanUp less data a j data.length i
    let j1 := scanDown less data a i1 data.length j
    if i1 > j1 then (data, j1)
    else partitionLoop less a fuel (Swap data i1 j1) (i1 + 1) (j1 - 1)

/-- Go 1.19 and later, `partition_func`: one quicksort partition of `data[a:b]`
around the element at `pivot`; it returns the slice, the new index of the pivot
and whether the slice was partitioned already. -/
def partition (less : String → String → Bool) (data : List String) (a b pivot : Nat) :
    List String × Nat × Bool :=
  let d0 := Swap data a pivot
  let i := scanUp less d0 a (b - 1) d0.length (a + 1)
  let j := scanDown less d0 a i d0.length (b - 1)
  if i > j then (Swap d0 j a, j, true)
  else
    let r := partitionLoop less a d0.length (Swap d0 i j) (i + 1) (j - 1)
    (Swap r.1 r.2 a, r.2, false)

/-- Go 1.19 and later, `sort.Slice`, that is `pdqsort_func` on the whole slice:
at most 12 elements are sorted by `insertionSort_func`; a longer slice gets a
pivot, is returned as it is when the hint and `partialInsertionSort_func` find
it sorted, and is else partitioned, after which the two sides are sorted, by
`insertionSort_func` when they have at most 12 elements each. Slices of 50
elements and more and sides of more than 12 elements are left out (`none`). -/
def sortSlicePdq (less : String → String → Bool) (data : List String) :
    Option (List String) :=
  if data.length ≤ 12 then some (sortSlice less data)
  else if 50 ≤ data.length then none
  else
    let ph := choosePivot less data 0 data.length
    if ph.2 = sortedHint.decreasingHint then none
    else if ph.2 = sortedHint.increasingHint
        ∧ partialInsertionSort less data 0 data.length = true then some data
    else
      let r := partition less data 0 data.length ph.1
      let mid := r.2.1
      if mid ≤ 12 ∧ data.length - (mid + 1) ≤ 12 then
        some (sortSlice less (r.1.take mid) ++ (r.1.drop mid).take 1
          ++ sortSlice less (r.1.drop (mid + 1)))
      else none

/-! ## `section.go` -/

/-- rpad right pads a string. -/
def rpad (s : String) (l : Int) : Option String :=
  (Repeat " " (l - len s)).map fun pad => s ++ pad

/-- max returns maximum of a, b. -/
def max (a b : Int) : Int :=
  if a > b then a else b

/-- add adds b, c to a, returning the max of pad or len(b). -/
def add (a : List (List String)) (b c : String) (pad : Int) : List (List String) × Int :=
  (a ++ [[b, c]], max pad (len b))

/-- optText returns a string and the opt text. -/
def optText (desc : Desc) : String × String :=
  if desc.Params ≠ "" then (desc.Desc, " " ++ desc.Params) else (desc.Desc, desc.Params)

/-- Lines 60 to 66 of `Listing`: the keys of the aliases that are not silent, in
`range` order. -/
def collectAliases (cmd : Cmd) : List String :=
  cmd.Aliases.foldl
    (fun aliases e => if e.2.Desc = "" ∧ e.2.Params = "" then aliases else aliases ++ [e.1]) []

/-- Lines 60 to 69 of `Listing`: the collected alias keys after `sort.Slice`. -/
def sortedAliases (ToLower : String → String) (cmd : Cmd) : List String :=
  sortSlice (fun a b => strLess (ToLower a) (ToLower b)) (collectAliases cmd)

/-- Lines 56 to 73 of `Listing`: the body of the loop over the commands of a
section, on the pair `(descs, plen)`. -/
def cmdStep (ToLower : String → String) (pkg : Pkg) (acc : List (List String) × Int)
    (c : Metacmd) : List (List String) × Int :=
  let cmd := pkg.cmds c
  let so := optText cmd.Desc
  let acc1 := add acc.1 ("  \\" ++ cmd.Name ++ so.2) so.1 acc.2
  (sortedAliases ToLower cmd).foldl
    (fun acc2 key =>
      let so2 := optText (mapIndex cmd.Aliases key)
      add acc2.1 ("  \\" ++ TrimSpace key ++ so2.2) so2.1 acc2.2)
    acc1

/-- Lines 53 to 76 of `Listing`: the body of the first loop over `SectionOrder`,
on the pair `(sectionDescs, plen)`. -/
def sectionStep (ToLower : String → String) (pkg : Pkg)
    (acc : (Section → List (List String)) × Int) (sec : Section) :
    (Section → List (List String)) × Int :=
  let r := (pkg.sectMap sec).foldl (cmdStep ToLower pkg) ([], acc.2)
  (fun s => if s = sec then r.1 else acc.1 s, r.2)

/-- Lines 51 to 76 of `Listing`: the first pass, which returns `sectionDescs`
and `plen`. -/
def buildRows (ToLower : String → String) (pkg : Pkg) :
    (Section → List (List String)) × Int :=
  pkg.SectionOrder.foldl (sectionStep ToLower pkg) (fun _ => [], 0)

/-- Line 80 of `Listing`: one row is printed; the result of the write is
dropped. -/
def emitLine {σ : Type} (w : Writer σ) (plen : Int) (st : σ) (line : List String) :
    Option σ := do
  let label ← line.get? 0
  let padded ← rpad label plen
  let desc ← line.get? 1
  pure (Fprintln w st [padded, "", desc]).1

/-- Lines 78 to 82 of `Listing`: the body of the second loop over
`SectionOrder`. -/
def emitSection {σ : Type} (w : Writer σ) (sectionDescs : Section → List (List String))
    (plen : Int) (st : σ) (sec : Section) : Option σ := do
  let st1 := (Fprintln w st [sec]).1
  let st2 ← (sectionDescs sec).foldlM (emitLine w plen) st1
  pure (Fprintln w st2 []).1

/-- Lines 77 to 83 of `Listing`: the second pass, over the sections `order`. -/
def emit {σ : Type} (w : Writer σ) (sectionDescs : Section → List (List String))
    (plen : Int) (order : List Section) (st : σ) : Option σ :=
  order.foldlM (emitSection w sectionDescs plen) st

/-- Listing writes the formatted command listing to w, separated into different
sections for all known commands. The result is the state of the sink after the
call; Listing itself returns nothing. -/
def Listing {σ : Type} (ToLower : String → String) (pkg : Pkg) (w : Writer σ) (st : σ) :
    Option σ :=
  let r := buildRows ToLower pkg
  emit w r.1 r.2 pkg.SectionOrder st

/-! ## Sinks used to observe `Listing` -/

/-- A sink that accepts every write and keeps the bytes written so far. -/
def bufferWriter : Writer String where
  Write st p := (st ++ p, none)

/-- A sink that accepts every write and keeps the list of the writes. -/
def recordWriter : Writer (List String) where
  Write st p := (st ++ [p], none)

/-- A sink that rejects every write; its state counts the writes attempted. -/
def closedWriter : Writer Nat where
  Write st _ := (st + 1, some "write on closed pipe")

/-! ## Vocabulary of the theorems -/

/-- The alias is silent: its description and its params are both empty. -/
def silent (d : Desc) : Bool :=
  decide (d.Desc = "" ∧ d.Params = "")

/-- The string of `n` spaces that `strings.Repeat(" ", n)` returns. -/
def spaces (n : Nat) : String :=
  String.join (List.replicate n " ")

/-- The row `add` stores for a command or alias shown under `name` with the
descriptor `d`: the label built on lines 58 and 72, and the description. -/
def rowOf (name : String) (d : Desc) : List String :=
  ["  \\" ++ name ++ (optText d).2, (optText d).1]

/-- The rows one pass of the loop body stores for a command: its own row, then
one row for each key of `sortedAliases`. -/
def cmdRows (ToLower : String → String) (cmd : Cmd) : List (List String) :=
  rowOf cmd.Name cmd.Desc ::
    (sortedAliases ToLower cmd).map fun key => rowOf (TrimSpace key) (mapIndex cmd.Aliases key)

/-- The running pad width after the rows `rows`, from the width `pad`. -/
def padAfter (pad : Int) (rows : List (List String)) : Int :=
  rows.foldl (fun p row => max p (len (row.headD ""))) pad

/-- The rows of a section: those of its commands, in the order of `sectMap`. -/
def sectionRows (ToLower : String → String) (pkg : Pkg) (sec : Section) : List (List String) :=
  (pkg.sectMap sec).flatMap fun c => cmdRows ToLower (pkg.cmds c)

/-- The writes `lines` handed to the sink one after the other, the result of
each being dropped. -/
def writeAll {σ : Type} (w : Writer σ) (st : σ) (lines : List String) : σ :=
  lines.foldl (fun s p => (w.Write s p).1) st

/-- A stored row is a pair of a label and a description, the label no longer
than `plen`. -/
def IsRow (plen : Int) (row : List String) : Prop :=
  ∃ label desc, row = [label, desc] ∧ len label ≤ plen

/-- The line written for a row: the label, the padding, the two separating
spaces that `Fprintln` puts around its empty middle operand, the description and
the newline. -/
def rowLine (plen : Int) (row : List String) : String :=
  row.headD "" ++ spaces (plen - len (row.headD "")).toNat ++ "  " ++ row.getD 1 "" ++ "\n"

/-- The lines written for one section: heading, rows, blank line. -/
def blockLines (sectionDescs : Section → List (List String)) (plen : Int) (sec : Section) :
    List String :=
  (sec ++ "\n") :: ((sectionDescs sec).map (rowLine plen) ++ ["\n"])

/-- A registry of two sections with one command each: `name` under General and
`?` under Help. -/
def twoSections (name : String) : Pkg where
  SectionOrder := ["General", "Help"]
  sectMap := fun sec => if sec = "General" then [0] else if sec = "Help" then [1] else []
  cmds := fun c => if c = 0 then ⟨name, ⟨"execute", ""⟩, []⟩ else ⟨"?", ⟨"help", ""⟩, []⟩

/-- A registry with the sections General and Help and the single command `cmd`,
registered under General; nothing is registered under Help. -/
def oneCommand (cmd : Cmd) : Pkg where
  SectionOrder := ["General", "Help"]
  sectMap := fun sec => if sec = "General" then [0] else []
  cmds := fun _ => cmd

/-- The Section constants of `section.go`, in the order of their declaration. -/
def declaredSections : List Section :=
  [SectionGeneral, SectionQueryExecute, SectionQueryBuffer, SectionHelp, SectionTransaction,
   SectionInputOutput, SectionInformational, SectionFormatting, SectionConnection,
   SectionOperatingSystem, SectionVariables]

/-- A command whose aliases, none silent, are visited by `range` in the order of
`keys`. -/
def aliasedCommand (keys : List String) : Cmd :=
  ⟨"x", ⟨"command", ""⟩, keys.map fun key => (key, ⟨"alias", ""⟩)⟩

/-- A registry whose section General holds two commands, in the order 1 then 0:
command 1 is `quit` with the listed aliases `Q` and `exit`, command 0 is `go`
with the listed alias `g` and the silent alias `hidden`. Help is empty. -/
def twoCommands : Pkg where
  SectionOrder := ["General", "Help"]
  sectMap := fun sec => if sec = "General" then [1, 0] else []
  cmds := fun c =>
    if c = 0 then
      ⟨"go", ⟨"execute", "[N]"⟩, [("hidden", ⟨"", ""⟩), ("g", ⟨"execute", ""⟩)]⟩
    else
      ⟨"quit", ⟨"leave", ""⟩, [("Q", ⟨"leave", ""⟩), ("exit", ⟨"leave now", ""⟩)]⟩

/-! ## Strings -/

theorem len_append (a b : String) : len (a ++ b) = len a + len b := by
  simp [len, String.utf8ByteSize, String.append]

theorem len_nonneg (a : String) : 0 ≤ len a := by
  simp [len]

theorem strLess_iff (a b : String) : strLess a b = true ↔ a < b := by
  simp [strLess, String.lt_iff_toList_lt]

theorem foldl_append_acc (l : List String) (acc : String) :
    List.foldl (fun r x => r ++ x) acc l = acc ++ List.foldl (fun r x => r ++ x) "" l := by
  induction l generalizing acc with
  | nil => simp
  | cons x xs ih =>
    simp only [List.foldl_cons]
    rw [ih (acc ++ x), ih ("" ++ x)]
    simp [String.append_assoc]

theorem join_cons (x : String) (xs : List String) :
    String.join (x :: xs) = x ++ String.join xs := by
  simp only [String.join, List.foldl_cons]
  rw [foldl_append_acc]
  simp

theorem join_append (xs ys : List String) :
    String.join (xs ++ ys) = String.join xs ++ String.join ys := by
  induction xs with
  | nil => simp [String.join]
  | cons x xs ih => rw [List.cons_append, join_cons, join_cons, ih, String.append_assoc]

theorem join_replicate_succ (n : Nat) (s : String) :
    String.join (List.replicate (n + 1) s) = s ++ String.join (List.replicate n s) := by
  rw [List.replicate_succ, join_cons]

theorem len_spaces (n : Nat) : len (spaces n) = n := by
  induction n with
  | zero => decide
  | succ k ih =>
    unfold spaces at ih ⊢
    rw [join_replicate_succ, len_append, ih]
    have : len " " = 1 := by decide
    rw [this]
    push_cast
    ring

theorem rpad_of_le (s : String) (l : Int) (h : len s ≤ l) :
    rpad s l = some (s ++ spaces (l - len s).toNat) := by
  have h0 : ¬ (l - len s < 0) := by omega
  simp [rpad, Repeat, h0, spaces]

theorem len_rpad (s : String) (l : Int) (h : len s ≤ l) :
    len (s ++ spaces (l - len s).toNat) = l := by
  rw [len_append, len_spaces]
  omega

theorem Sprintln_one (a : String) : Sprintln [a] = a ++ "\n" := by
  simp [Sprintln, String.intercalate, String.intercalate.go]

theorem Sprintln_nil : Sprintln [] = "\n" := by
  simp [Sprintln, String.intercalate]

theorem Sprintln_three (a b c : String) :
    Sprintln [a, b, c] = a ++ " " ++ b ++ " " ++ c ++ "\n" := by
  simp [Sprintln, String.intercalate, String.intercalate.go]

/-! ## `sort.Slice` -/

theorem sink_perm {α : Type} (less : α → α → Bool) (x : α) (l : List α) :
    (sink less x l).Perm (x :: l) := by
  induction l with
  | nil => simp [sink]
  | cons y ys ih =>
    by_cases h : less x y = true
    · simp only [sink, h, if_true]
      exact (List.Perm.cons y ih).trans (List.Perm.swap x y ys)
    · simp [sink, h]

theorem foldl_sink_perm {α : Type} (less : α → α → Bool) (l acc : List α) :
    (l.foldl (fun sorted x => sink less x sorted) acc).Perm (l ++ acc) := by
  induction l generalizing acc with
  | nil => simp
  | cons x xs ih =>
    simp only [List.foldl_cons]
    refine (ih (sink less x acc)).trans ?_
    refine (List.Perm.append_left xs (sink_perm less x acc)).trans ?_
    exact List.perm_middle

theorem sortSlice_perm {α : Type} (less : α → α → Bool) (l : List α) :
    (sortSlice less l).Perm l := by
  unfold sortSlice
  refine (List.reverse_perm _).trans ?_
  have h := foldl_sink_perm less l []
  rwa [List.append_nil] at h

theorem sink_pairwise {α β : Type} [LinearOrder β] (f : α → β) (less : α → α → Bool)
    (hless : ∀ a b, less a b = true ↔ f a < f b) (x : α) (l : List α)
    (h : l.Pairwise (fun a b => f b ≤ f a)) :
    (sink less x l).Pairwise (fun a b => f b ≤ f a) := by
  induction l with
  | nil => simp [sink]
  | cons y ys ih =>
    have hy := List.pairwise_cons.mp h
    by_cases hxy : less x y = true
    · simp only [sink, hxy, if_true]
      refine List.pairwise_cons.mpr ⟨?_, ih hy.2⟩
      intro a ha
      rcases List.mem_cons.mp ((sink_perm less x ys).mem_iff.mp ha) with hax | hays
      · rw [hax]
        exact le_of_lt ((hless x y).mp hxy)
      · exact hy.1 a hays
    · simp only [sink, hxy]
      have hyx : f y ≤ f x := not_lt.mp (fun hlt => hxy ((hless x y).mpr hlt))
      refine List.pairwise_cons.mpr ⟨?_, h⟩
      intro a ha
      rcases List.mem_cons.mp ha with rfl | ha
      · exact hyx
      · exact le_trans (hy.1 a ha) hyx

theorem sortSlice_pairwise {α β : Type} [LinearOrder β] (f : α → β) (less : α → α → Bool)
    (hless : ∀ a b, less a b = true ↔ f a < f b) (l : List α) :
    (sortSlice less l).Pairwise (fun a b => f a ≤ f b) := by
  have h : ∀ (l acc : List α), acc.Pairwise (fun a b => f b ≤ f a) →
      (l.foldl (fun sorted x => sink less x sorted) acc).Pairwise (fun a b => f b ≤ f a) := by
    intro l
    induction l with
    | nil => intro acc hacc; simpa using hacc
    | cons x xs ih =>
      intro acc hacc
      simp only [List.foldl_cons]
      exact ih _ (sink_pairwise f less hless x acc hacc)
  unfold sortSlice
  rw [List.pairwise_reverse]
  exact h l [] List.Pairwise.nil

/-! ## The first pass -/

theorem collectAliases_eq (cmd : Cmd) :
    collectAliases cmd = (cmd.Aliases.filter fun e => !silent e.2).map Prod.fst := by
  have h : ∀ (m : List (String × Desc)) (acc : List String),
      m.foldl (fun aliases e =>
        if e.2.Desc = "" ∧ e.2.Params = "" then aliases else aliases ++ [e.1]) acc
        = acc ++ (m.filter fun e => !silent e.2).map Prod.fst := by
    intro m
    induction m with
    | nil => intro acc; simp
    | cons e es ih =>
      intro acc
      simp only [List.foldl_cons]
      rw [ih]
      by_cases hs : e.2.Desc = "" ∧ e.2.Params = ""
      · have hs2 : (!silent e.2) = false := by simp [silent, hs]
        simp only [List.filter_cons, hs2, if_pos hs]
        simp
      · have hs2 : (!silent e.2) = true := by simp [silent, hs]
        simp only [List.filter_cons, hs2, if_neg hs]
        simp
  unfold collectAliases
  rw [h]
  simp

theorem sortedAliases_perm (ToLower : String → String) (cmd : Cmd) :
    (sortedAliases ToLower cmd).Perm ((cmd.Aliases.filter fun e => !silent e.2).map Prod.fst) := by
  unfold sortedAliases
  rw [← collectAliases_eq]
  exact sortSlice_perm _ _

theorem sortedAliases_pairwise (ToLower : String → String) (cmd : Cmd) :
    (sortedAliases ToLower cmd).Pairwise (fun a b => ToLower a ≤ ToLower b) :=
  sortSlice_pairwise ToLower _ (fun a b => strLess_iff (ToLower a) (ToLower b)) _

theorem padAfter_append (pad : Int) (r1 r2 : List (List String)) :
    padAfter pad (r1 ++ r2) = padAfter (padAfter pad r1) r2 := by
  simp [padAfter, List.foldl_append]

theorem foldl_add_eq (keys : List String) (f g : String → String)
    (acc : List (List String) × Int) :
    keys.foldl (fun acc2 key => add acc2.1 (f key) (g key) acc2.2) acc
      = (acc.1 ++ keys.map (fun key => [f key, g key]),
         padAfter acc.2 (keys.map fun key => [f key, g key])) := by
  induction keys generalizing acc with
  | nil => simp [padAfter]
  | cons k ks ih =>
    simp only [List.foldl_cons]
    rw [ih]
    simp [add, padAfter]

theorem cmdStep_eq (ToLower : String → String) (pkg : Pkg) (acc : List (List String) × Int)
    (c : Metacmd) :
    cmdStep ToLower pkg acc c
      = (acc.1 ++ cmdRows ToLower (pkg.cmds c), padAfter acc.2 (cmdRows ToLower (pkg.cmds c))) := by
  unfold cmdStep
  simp only []
  rw [foldl_add_eq (sortedAliases ToLower (pkg.cmds c))
    (fun key => "  \\" ++ TrimSpace key ++ (optText (mapIndex (pkg.cmds c).Aliases key)).2)
    (fun key => (optText (mapIndex (pkg.cmds c).Aliases key)).1)]
  simp [add, cmdRows, rowOf, padAfter]

theorem foldl_cmdStep_eq (ToLower : String → String) (pkg : Pkg) (cs : List Metacmd)
    (acc : List (List String) × Int) :
    cs.foldl (cmdStep ToLower pkg) acc
      = (acc.1 ++ cs.flatMap (fun c => cmdRows ToLower (pkg.cmds c)),
         padAfter acc.2 (cs.flatMap fun c => cmdRows ToLower (pkg.cmds c))) := by
  induction cs generalizing acc with
  | nil => simp [padAfter]
  | cons c cs ih =>
    simp only [List.foldl_cons]
    rw [ih, cmdStep_eq]
    simp [padAfter_append, List.flatMap_cons]

theorem sectionStep_eq (ToLower : String → String) (pkg : Pkg)
    (acc : (Section → List (List String)) × Int) (sec : Section) :
    sectionStep ToLower pkg acc sec
      = (fun s => if s = sec then sectionRows ToLower pkg sec else acc.1 s,
         padAfter acc.2 (sectionRows ToLower pkg sec)) := by
  unfold sectionStep
  simp only []
  rw [foldl_cmdStep_eq]
  simp [sectionRows]

theorem foldl_sectionStep_eq (ToLower : String → String) (pkg : Pkg) (order : List Section)
    (acc : (Section → List (List String)) × Int) :
    order.foldl (sectionStep ToLower pkg) acc
      = (fun s => if s ∈ order then sectionRows ToLower pkg s else acc.1 s,
         padAfter acc.2 (order.flatMap (sectionRows ToLower pkg))) := by
  induction order generalizing acc with
  | nil => simp [padAfter]
  | cons sec rest ih =>
    simp only [List.foldl_cons]
    rw [ih, sectionStep_eq]
    refine Prod.ext ?_ ?_
    · funext s
      by_cases h1 : s ∈ rest
      · simp [h1]
      · by_cases h2 : s = sec
        · simp [h2]
        · simp [h1, h2]
    · simp [padAfter_append, List.flatMap_cons]

theorem buildRows_fst (ToLower : String → String) (pkg : Pkg) (sec : Section) :
    (buildRows ToLower pkg).1 sec
      = if sec ∈ pkg.SectionOrder then sectionRows ToLower pkg sec else [] := by
  unfold buildRows
  rw [foldl_sectionStep_eq]

theorem buildRows_snd (ToLower : String → String) (pkg : Pkg) :
    (buildRows ToLower pkg).2
      = padAfter 0 (pkg.SectionOrder.flatMap (sectionRows ToLower pkg)) := by
  unfold buildRows
  rw [foldl_sectionStep_eq]

theorem flatMap_buildRows (ToLower : String → String) (pkg : Pkg) :
    pkg.SectionOrder.flatMap (buildRows ToLower pkg).1
      = pkg.SectionOrder.flatMap (sectionRows ToLower pkg) := by
  have h : ∀ (l : List Section), (∀ s ∈ l, s ∈ pkg.SectionOrder) →
      l.flatMap (buildRows ToLower pkg).1 = l.flatMap (sectionRows ToLower pkg) := by
    intro l
    induction l with
    | nil => intro _; rfl
    | cons s rest ih =>
      intro hmem
      simp only [List.flatMap_cons]
      rw [ih (fun t ht => hmem t (List.mem_cons_of_mem _ ht)), buildRows_fst,
        if_pos (hmem s (List.mem_cons_self _ _))]
  exact h _ (fun _ hs => hs)

/-! ## The pad width -/

theorem max_eq_max (a b : Int) : max a b = Max.max a b := by
  unfold max
  by_cases h : a > b
  · rw [if_pos h]; exact (max_eq_left (le_of_lt h)).symm
  · rw [if_neg h]; exact (max_eq_right (not_lt.mp h)).symm

theorem le_padAfter (pad : Int) (rows : List (List String)) : pad ≤ padAfter pad rows := by
  induction rows generalizing pad with
  | nil => simp [padAfter]
  | cons r rs ih =>
    have h := ih (max pad (len (r.headD "")))
    rw [max_eq_max] at h
    simp only [padAfter, List.foldl_cons] at h ⊢
    rw [max_eq_max]
    exact le_trans (le_max_left _ _) h

theorem len_le_padAfter (pad : Int) (rows : List (List String)) (row : List String)
    (hrow : row ∈ rows) : len (row.headD "") ≤ padAfter pad rows := by
  induction rows generalizing pad with
  | nil => cases hrow
  | cons r rs ih =>
    have hstep : padAfter pad (r :: rs) = padAfter (max pad (len (r.headD ""))) rs := rfl
    rw [hstep]
    rcases List.mem_cons.mp hrow with h | h
    · rw [h]
      refine le_trans ?_ (le_padAfter _ rs)
      rw [max_eq_max]
      exact le_max_right _ _
    · exact ih _ h

theorem padAfter_eq_foldr (pad : Int) (rows : List (List String)) :
    padAfter pad rows = (rows.map fun row => len (row.headD "")).foldr Max.max pad := by
  induction rows generalizing pad with
  | nil => rfl
  | cons r rs ih =>
    have hstep : padAfter pad (r :: rs) = padAfter (max pad (len (r.headD ""))) rs := rfl
    rw [hstep, ih, max_eq_max]
    simp only [List.map_cons, List.foldr_cons]
    generalize (rs.map fun row => len (row.headD "")) = ls
    induction ls with
    | nil => simp [max_comm]
    | cons x xs ihx =>
      simp only [List.foldr_cons]
      rw [ihx, max_left_comm]

/-! ## The second pass -/

theorem writeAll_append {σ : Type} (w : Writer σ) (st : σ) (l1 l2 : List String) :
    writeAll w st (l1 ++ l2) = writeAll w (writeAll w st l1) l2 := by
  simp [writeAll, List.foldl_append]

theorem emitLine_eq {σ : Type} (w : Writer σ) (plen : Int) (st : σ) (row : List String)
    (hrow : IsRow plen row) :
    emitLine w plen st row = some (w.Write st (rowLine plen row)).1 := by
  obtain ⟨label, desc, rfl, hle⟩ := hrow
  have h2 : ∀ a : String, a ++ " " ++ " " = a ++ "  " := by
    intro a
    rw [String.append_assoc]
    rfl
  simp [emitLine, rpad_of_le label plen hle, Fprintln, Sprintln_three, rowLine, h2]

theorem foldlM_emitLine_eq {σ : Type} (w : Writer σ) (plen : Int) (rows : List (List String))
    (st : σ) (hrows : ∀ row ∈ rows, IsRow plen row) :
    rows.foldlM (emitLine w plen) st = some (writeAll w st (rows.map (rowLine plen))) := by
  induction rows generalizing st with
  | nil => rfl
  | cons r rs ih =>
    rw [List.foldlM_cons, emitLine_eq w plen st r (hrows r (List.mem_cons_self _ _))]
    simp only [Option.some_bind, Option.bind_eq_bind]
    rw [ih _ (fun row h => hrows row (List.mem_cons_of_mem _ h))]
    rfl

theorem emitSection_eq {σ : Type} (w : Writer σ) (sectionDescs : Section → List (List String))
    (plen : Int) (st : σ) (sec : Section) (hrows : ∀ row ∈ sectionDescs sec, IsRow plen row) :
    emitSection w sectionDescs plen st sec
      = some (writeAll w st (blockLines sectionDescs plen sec)) := by
  unfold emitSection
  simp only []
  rw [foldlM_emitLine_eq w plen _ _ hrows]
  simp [Fprintln, Sprintln_one, Sprintln_nil, blockLines, writeAll, List.foldl_append]

theorem emit_eq {σ : Type} (w : Writer σ) (sectionDescs : Section → List (List String))
    (plen : Int) (order : List Section) (st : σ)
    (hrows : ∀ sec ∈ order, ∀ row ∈ sectionDescs sec, IsRow plen row) :
    emit w sectionDescs plen order st
      = some (writeAll w st (order.flatMap (blockLines sectionDescs plen))) := by
  unfold emit
  induction order generalizing st with
  | nil => rfl
  | cons sec rest ih =>
    rw [List.foldlM_cons, emitSection_eq w _ plen st sec (hrows sec (List.mem_cons_self _ _))]
    simp only [Option.some_bind, Option.bind_eq_bind]
    rw [ih _ (fun s hs => hrows s (List.mem_cons_of_mem _ hs))]
    simp [List.flatMap_cons, writeAll_append]

theorem isRow_buildRows (ToLower : String → String) (pkg : Pkg) (sec : Section)
    (hsec : sec ∈ pkg.SectionOrder) (row : List String)
    (hrow : row ∈ (buildRows ToLower pkg).1 sec) :
    IsRow (buildRows ToLower pkg).2 row := by
  rw [buildRows_fst, if_pos hsec] at hrow
  have hall : row ∈ pkg.SectionOrder.flatMap (sectionRows ToLower pkg) :=
    List.mem_flatMap.mpr ⟨sec, hsec, hrow⟩
  have hle := len_le_padAfter 0 _ row hall
  rw [← buildRows_snd] at hle
  obtain ⟨c, _, hc⟩ := List.mem_flatMap.mp hrow
  have hshape : ∃ name d, row = rowOf name d := by
    rcases List.mem_cons.mp hc with h | h
    · exact ⟨_, _, h⟩
    · obtain ⟨key, _, hkey⟩ := List.mem_map.mp h
      exact ⟨_, _, hkey.symm⟩
  obtain ⟨name, d, rfl⟩ := hshape
  exact ⟨_, _, rfl, hle⟩

/-- What `Listing` does to any sink: it hands it the lines of the blocks of the
sections, in order, whatever the sink answers. -/
theorem Listing_eq {σ : Type} (ToLower : String → String) (pkg : Pkg) (w : Writer σ) (st : σ) :
    Listing ToLower pkg w st
      = some (writeAll w st (pkg.SectionOrder.flatMap
          (blockLines (buildRows ToLower pkg).1 (buildRows ToLower pkg).2))) := by
  unfold Listing
  exact emit_eq w _ _ _ st (fun sec hsec row hrow => isRow_buildRows ToLower pkg sec hsec row hrow)

theorem writeAll_record (st lines : List String) :
    writeAll recordWriter st lines = st ++ lines := by
  induction lines generalizing st with
  | nil => simp [writeAll]
  | cons l ls ih =>
    have hstep : writeAll recordWriter st (l :: ls) = writeAll recordWriter (st ++ [l]) ls := rfl
    rw [hstep, ih]
    simp

theorem writeAll_buffer (st : String) (lines : List String) :
    writeAll bufferWriter st lines = st ++ String.join lines := by
  induction lines generalizing st with
  | nil => simp [writeAll, String.join]
  | cons l ls ih =>
    have hstep : writeAll bufferWriter st (l :: ls) = writeAll bufferWriter (st ++ l) ls := rfl
    rw [hstep, ih, join_cons, String.append_assoc]

/-! ## Counting rows -/

theorem length_cmdRows (ToLower : String → String) (cmd : Cmd) :
    (cmdRows ToLower cmd).length = 1 + (cmd.Aliases.filter fun e => !silent e.2).length := by
  have h := (sortedAliases_perm ToLower cmd).length_eq
  simp only [List.length_map] at h
  simp only [cmdRows, List.length_cons, List.length_map, h]
  omega

theorem length_flatMap_cmdRows (ToLower : String → String) (pkg : Pkg) (cs : List Metacmd) :
    (cs.flatMap fun c => cmdRows ToLower (pkg.cmds c)).length
      = (cs.map fun c => 1 + ((pkg.cmds c).Aliases.filter fun e => !silent e.2).length).sum := by
  induction cs with
  | nil => rfl
  | cons c cs ih =>
    simp only [List.flatMap_cons, List.length_append, List.map_cons, List.sum_cons, ih,
      length_cmdRows]

theorem length_flatMap_blockLines (sectionDescs : Section → List (List String)) (plen : Int)
    (order : List Section) :
    (order.flatMap (blockLines sectionDescs plen)).length
      = 2 * order.length + (order.flatMap sectionDescs).length := by
  induction order with
  | nil => rfl
  | cons sec rest ih =>
    simp only [List.flatMap_cons, List.length_append, ih, blockLines, List.length_cons,
      List.length_map, List.length_nil]
    omega

theorem not_silent_iff (d : Desc) :
    (!silent d) = true ↔ ¬ (d.Desc = "" ∧ d.Params = "") := by
  unfold silent
  rw [Bool.not_eq_true', decide_eq_false_iff_not]

theorem nodup_keys_unique (m : List (String × Desc)) (hkeys : (m.map Prod.fst).Nodup)
    (k : String) (d1 d2 : Desc) (h1 : (k, d1) ∈ m) (h2 : (k, d2) ∈ m) : d1 = d2 := by
  have h := List.inj_on_of_nodup_map hkeys h1 h2 rfl
  exact congrArg Prod.snd h

theorem join_flatMap (l : List Section) (f : Section → List String) :
    String.join (l.flatMap f) = String.join (l.map fun x => String.join (f x)) := by
  induction l with
  | nil => rfl
  | cons x xs ih => rw [List.flatMap_cons, join_append, ih, List.map_cons, join_cons]

theorem join_blockLines (sectionDescs : Section → List (List String)) (plen : Int)
    (sec : Section) :
    String.join (blockLines sectionDescs plen sec)
      = sec ++ "\n" ++ String.join ((sectionDescs sec).map (rowLine plen)) ++ "\n" := by
  have h1 : String.join ["\n"] = "\n" := by decide
  rw [blockLines, join_cons, join_append, h1]
  simp only [String.append_assoc]

/-! ## The claims -/

/-- C1: the pad width of the emission pass is the maximum byte length of the
labels of all rows of all sections of the section order (0 when there is no
row); the line of every row, in whatever section, starts with the label
followed by the spaces that bring it to that one width, and the padded label has
exactly that byte length. In the registry `twoSections`, lengthening the command
of General from `go` to `gofurther` widens the padding of the row of Help. -/
theorem Listing_pad_width_is_global_max :
    (∀ (ToLower : String → String) (pkg : Pkg),
      (buildRows ToLower pkg).2
          = ((pkg.SectionOrder.flatMap (buildRows ToLower pkg).1).map
              fun row => len (row.headD "")).foldr Max.max 0
      ∧ Listing ToLower pkg recordWriter []
          = some (pkg.SectionOrder.flatMap fun sec =>
              (sec ++ "\n") :: (((buildRows ToLower pkg).1 sec).map (fun row =>
                row.headD "" ++ spaces ((buildRows ToLower pkg).2 - len (row.headD "")).toNat
                  ++ "  " ++ row.getD 1 "" ++ "\n") ++ ["\n"]))
      ∧ ∀ sec ∈ pkg.SectionOrder, ∀ row ∈ (buildRows ToLower pkg).1 sec,
          len (row.headD "" ++ spaces ((buildRows ToLower pkg).2 - len (row.headD "")).toNat)
            = (buildRows ToLower pkg).2)
    ∧ Listing asciiToLower (twoSections "go") recordWriter []
        = some ["General\n", "  \\go  execute\n", "\n", "Help\n", "  \\?   help\n", "\n"]
    ∧ Listing asciiToLower (twoSections "gofurther") recordWriter []
        = some ["General\n", "  \\gofurther  execute\n", "\n",
                "Help\n", "  \\?          help\n", "\n"] := by
  refine ⟨?_, by decide, by decide⟩
  intro ToLower pkg
  refine ⟨?_, ?_, ?_⟩
  · rw [buildRows_snd, flatMap_buildRows, padAfter_eq_foldr]
  · rw [Listing_eq, writeAll_record]
    rfl
  · intro sec hsec row hrow
    obtain ⟨label, desc, rfl, hle⟩ := isRow_buildRows ToLower pkg sec hsec row hrow
    exact len_rpad label _ hle

/-- C2, as stated, fails: in the registry `twoSections "go"` the line of the row
of `go` has two spaces between the padded label and the description, so it is
not the padded label, one space and the description. -/
theorem Listing_separator_is_not_one_space :
    Listing asciiToLower (twoSections "go") recordWriter []
        = some ["General\n", "  \\go  execute\n", "\n", "Help\n", "  \\?   help\n", "\n"]
    ∧ rpad "  \\go" (buildRows asciiToLower (twoSections "go")).2 = some "  \\go"
    ∧ "  \\go  execute\n" ≠ "  \\go" ++ " " ++ "execute" ++ "\n" := by
  decide

/-- C2, amended: for every row stored for a section of the section order, the
row is a pair of a label and a description, `rpad` pads the label with spaces to
the pad width, and the one write made for the row is the padded label, two
spaces (one on either side of the empty middle operand of `Fprintln`), the
description and a newline. -/
theorem Listing_row_line_has_two_spaces {σ : Type} (ToLower : String → String) (pkg : Pkg)
    (w : Writer σ) (st : σ) (sec : Section) (row : List String)
    (hsec : sec ∈ pkg.SectionOrder) (hrow : row ∈ (buildRows ToLower pkg).1 sec) :
    ∃ label desc padded,
      row = [label, desc]
      ∧ rpad label (buildRows ToLower pkg).2 = some padded
      ∧ padded = label ++ spaces ((buildRows ToLower pkg).2 - len label).toNat
      ∧ emitLine w (buildRows ToLower pkg).2 st row
          = some (w.Write st (padded ++ " " ++ " " ++ desc ++ "\n")).1 := by
  obtain ⟨label, desc, rfl, hle⟩ := isRow_buildRows ToLower pkg sec hsec row hrow
  refine ⟨label, desc, _, rfl, rpad_of_le label _ hle, rfl, ?_⟩
  simp [emitLine, rpad_of_le label _ hle, Fprintln, Sprintln_three]

/-- Witness of C2, amended: the row of `go` in `twoSections "go"`, on the
recording sink. -/
theorem Listing_row_line_has_two_spaces_witness :
    ("General" ∈ (twoSections "go").SectionOrder
      ∧ ["  \\go", "execute"] ∈ (buildRows asciiToLower (twoSections "go")).1 "General")
    ∧ ∃ label desc padded,
        ["  \\go", "execute"] = [label, desc]
        ∧ rpad label (buildRows asciiToLower (twoSections "go")).2 = some padded
        ∧ padded
            = label ++ spaces ((buildRows asciiToLower (twoSections "go")).2 - len label).toNat
        ∧ emitLine recordWriter (buildRows asciiToLower (twoSections "go")).2 []
            ["  \\go", "execute"]
            = some (recordWriter.Write [] (padded ++ " " ++ " " ++ desc ++ "\n")).1 :=
  ⟨⟨by decide, by decide⟩,
    Listing_row_line_has_two_spaces asciiToLower (twoSections "go") recordWriter [] "General"
      ["  \\go", "execute"] (by decide) (by decide)⟩

/-- C3, as stated, fails: on a sink that rejects every write, the first write
included, `Listing` still makes all six writes of the registry
`twoSections "go"`. -/
theorem Listing_keeps_writing_after_error :
    (closedWriter.Write 0 "General\n").2 = some "write on closed pipe"
    ∧ Listing asciiToLower (twoSections "go") closedWriter 0 = some 6 := by
  decide

/-- C3, amended: `Listing` has no error result and drops the result of every
write, so a rejected write stops nothing: there is one list of lines, the one
the recording sink receives, that `Listing` hands to any sink in full and in
order, each write starting from the state the previous one left, whether or not
the sink reports errors. -/
theorem Listing_ignores_write_errors (ToLower : String → String) (pkg : Pkg) :
    ∃ lines : List String,
      Listing ToLower pkg recordWriter [] = some lines
      ∧ ∀ (σ : Type) (w : Writer σ) (st : σ),
          Listing ToLower pkg w st = some (lines.foldl (fun s p => (w.Write s p).1) st) := by
  refine ⟨pkg.SectionOrder.flatMap
    (blockLines (buildRows ToLower pkg).1 (buildRows ToLower pkg).2), ?_, ?_⟩
  · rw [Listing_eq, writeAll_record, List.nil_append]
  · intro σ w st
    rw [Listing_eq]
    rfl

/-- C4: the rows stored for a section of the section order are as many as the
sum, over the commands registered under it, of 1 plus the number of the
command's aliases that are not silent, whatever the command's description; and
when `registered` lists the commands registered under the sections of the
section order, each once, `Listing` writes two lines for each section (heading
and blank line) and, besides, one row line for each registered command and one
for each of its aliases that is not silent. -/
theorem Listing_lists_each_command_and_alias_once (ToLower : String → String) (pkg : Pkg)
    (registered : List Metacmd)
    (hreg : (pkg.SectionOrder.flatMap pkg.sectMap).Perm registered) :
    (∀ sec ∈ pkg.SectionOrder,
      ((buildRows ToLower pkg).1 sec).length
        = ((pkg.sectMap sec).map fun c =>
            1 + ((pkg.cmds c).Aliases.filter fun e => !silent e.2).length).sum)
    ∧ ∃ lines : List String,
        Listing ToLower pkg recordWriter [] = some lines
        ∧ lines.length = 2 * pkg.SectionOrder.length
            + (registered.map fun c =>
                1 + ((pkg.cmds c).Aliases.filter fun e => !silent e.2).length).sum := by
  refine ⟨?_, _, by rw [Listing_eq, writeAll_record, List.nil_append], ?_⟩
  · intro sec hsec
    rw [buildRows_fst, if_pos hsec]
    exact length_flatMap_cmdRows ToLower pkg _
  · rw [length_flatMap_blockLines, flatMap_buildRows]
    have h1 : pkg.SectionOrder.flatMap (sectionRows ToLower pkg)
        = (pkg.SectionOrder.flatMap pkg.sectMap).flatMap
            fun c => cmdRows ToLower (pkg.cmds c) := by
      rw [List.flatMap_assoc]
      rfl
    rw [h1, length_flatMap_cmdRows]
    rw [(hreg.map _).sum_eq]

/-- Witness of C4: the registry `twoSections "go"`, whose registered commands
are 1 and 0. -/
theorem Listing_lists_each_command_and_alias_once_witness :
    ((twoSections "go").SectionOrder.flatMap (twoSections "go").sectMap).Perm [1, 0]
    ∧ ((∀ sec ∈ (twoSections "go").SectionOrder,
        ((buildRows asciiToLower (twoSections "go")).1 sec).length
          = (((twoSections "go").sectMap sec).map fun c =>
              1 + (((twoSections "go").cmds c).Aliases.filter fun e => !silent e.2).length).sum)
      ∧ ∃ lines : List String,
          Listing asciiToLower (twoSections "go") recordWriter [] = some lines
          ∧ lines.length = 2 * (twoSections "go").SectionOrder.length
              + (([1, 0] : List Metacmd).map fun c =>
                  1 + (((twoSections "go").cmds c).Aliases.filter
                    fun e => !silent e.2).length).sum) :=
  ⟨by decide, Listing_lists_each_command_and_alias_once asciiToLower (twoSections "go") [1, 0]
    (by decide)⟩

/-- C5: for an alias `key` with descriptor `desc` in the alias map of a command
(a map: its keys are pairwise distinct), the key is among the keys rows are
built for exactly when `desc.Desc` and `desc.Params` are not both empty, and
then once; the keys rows are built for depend on the alias map alone, not on the
owning command's name or description; and the loop body stores the command's row
followed by one row for each of these keys. -/
theorem Listing_alias_row_iff_not_silent (ToLower : String → String) (cmd : Cmd)
    (key : String) (desc : Desc)
    (hkeys : (cmd.Aliases.map Prod.fst).Nodup) (hmem : (key, desc) ∈ cmd.Aliases) :
    (key ∈ sortedAliases ToLower cmd ↔ ¬ (desc.Desc = "" ∧ desc.Params = ""))
    ∧ (sortedAliases ToLower cmd).count key
        = (if desc.Desc = "" ∧ desc.Params = "" then 0 else 1)
    ∧ (∀ (name : String) (d : Desc),
        sortedAliases ToLower ⟨name, d, cmd.Aliases⟩ = sortedAliases ToLower cmd)
    ∧ ∀ (pkg : Pkg) (acc : List (List String) × Int) (c : Metacmd), pkg.cmds c = cmd →
        (cmdStep ToLower pkg acc c).1
          = acc.1 ++ rowOf cmd.Name cmd.Desc ::
              (sortedAliases ToLower cmd).map
                fun k => rowOf (TrimSpace k) (mapIndex cmd.Aliases k) := by
  have hperm := sortedAliases_perm ToLower cmd
  have hiff : key ∈ sortedAliases ToLower cmd ↔ ¬ (desc.Desc = "" ∧ desc.Params = "") := by
    rw [hperm.mem_iff, List.mem_map]
    constructor
    · rintro ⟨⟨k, d⟩, he, hk⟩
      have hk2 : k = key := hk
      subst hk2
      obtain ⟨hin, hp⟩ := List.mem_filter.mp he
      have hd : d = desc := nodup_keys_unique cmd.Aliases hkeys k d desc hin hmem
      subst hd
      exact (not_silent_iff d).mp hp
    · intro hns
      exact ⟨(key, desc), List.mem_filter.mpr ⟨hmem, (not_silent_iff desc).mpr hns⟩, rfl⟩
  have hnodup : (sortedAliases ToLower cmd).Nodup := by
    refine hperm.nodup_iff.mpr ?_
    exact List.Nodup.sublist (List.Sublist.map _ (List.filter_sublist _)) hkeys
  refine ⟨hiff, ?_, fun _ _ => rfl, ?_⟩
  · by_cases hs : desc.Desc = "" ∧ desc.Params = ""
    · rw [if_pos hs]
      exact List.count_eq_zero_of_not_mem (fun h => (hiff.mp h) hs)
    · rw [if_neg hs]
      exact List.count_eq_one_of_mem hnodup (hiff.mpr hs)
  · intro pkg acc c hc
    rw [cmdStep_eq, hc]
    rfl

/-- Witness of C5: a command with the aliases `g`, described, and `q`, silent;
the key `q` is looked at. -/
theorem Listing_alias_row_iff_not_silent_witness :
    ((([("g", ⟨"execute", ""⟩), ("q", ⟨"", ""⟩)] : List (String × Desc)).map Prod.fst).Nodup
      ∧ (("q", ⟨"", ""⟩) : String × Desc) ∈
          ([("g", ⟨"execute", ""⟩), ("q", ⟨"", ""⟩)] : List (String × Desc)))
    ∧ ¬ ("q" ∈ sortedAliases asciiToLower
          ⟨"go", ⟨"execute", ""⟩, [("g", ⟨"execute", ""⟩), ("q", ⟨"", ""⟩)]⟩) :=
  ⟨⟨by decide, by decide⟩,
    fun h => ((Listing_alias_row_iff_not_silent asciiToLower
      ⟨"go", ⟨"execute", ""⟩, [("g", ⟨"execute", ""⟩), ("q", ⟨"", ""⟩)]⟩ "q" ⟨"", ""⟩
      (by decide) (by decide)).1.mp h) ⟨rfl, rfl⟩⟩

/-- C6: for every command, the keys rows are built for are in case-insensitive
ascending order (each consecutive pair, and so every pair, has
`ToLower k1 ≤ ToLower k2`), they are a permutation of the keys of the aliases
that are not silent, and the alias rows are stored in that order after the
command's row. For the aliases `Z`, `a` and `M`, none silent, visited by `range`
in any order, the keys come out as `a`, `M`, `Z`. -/
theorem Listing_alias_rows_sorted_case_insensitively :
    (∀ (ToLower : String → String) (cmd : Cmd),
      (sortedAliases ToLower cmd).Chain' (fun k1 k2 => ToLower k1 ≤ ToLower k2)
      ∧ (sortedAliases ToLower cmd).Pairwise (fun k1 k2 => ToLower k1 ≤ ToLower k2)
      ∧ (sortedAliases ToLower cmd).Perm
          ((cmd.Aliases.filter fun e => !silent e.2).map Prod.fst)
      ∧ ∀ (pkg : Pkg) (acc : List (List String) × Int) (c : Metacmd), pkg.cmds c = cmd →
          (cmdStep ToLower pkg acc c).1
            = acc.1 ++ rowOf cmd.Name cmd.Desc ::
                (sortedAliases ToLower cmd).map
                  fun k => rowOf (TrimSpace k) (mapIndex cmd.Aliases k))
    ∧ ∀ (name : String) (d dz da dm : Desc) (m : List (String × Desc)),
        m.Perm [("Z", dz), ("a", da), ("M", dm)] →
        silent dz = false → silent da = false → silent dm = false →
        sortedAliases asciiToLower ⟨name, d, m⟩ = ["a", "M", "Z"] := by
  constructor
  · intro ToLower cmd
    refine ⟨(sortedAliases_pairwise ToLower cmd).chain', sortedAliases_pairwise ToLower cmd,
      sortedAliases_perm ToLower cmd, ?_⟩
    intro pkg acc c hc
    rw [cmdStep_eq, hc]
    rfl
  · intro name d dz da dm m hm hz ha hM
    have hperm := sortedAliases_perm asciiToLower ⟨name, d, m⟩
    have hpw := sortedAliases_pairwise asciiToLower ⟨name, d, m⟩
    have hkeys : ((m.filter fun e => !silent e.2).map Prod.fst).Perm ["Z", "a", "M"] := by
      have h := (hm.filter (fun e => !silent e.2)).map Prod.fst
      simpa [List.filter_cons, hz, ha, hM] using h
    have hperm2 := hperm.trans hkeys
    have hpw2 : (sortedAliases asciiToLower ⟨name, d, m⟩).Pairwise
        (fun k1 k2 => strLess (asciiToLower k2) (asciiToLower k1) = false) := by
      refine hpw.imp ?_
      intro k1 k2 hle
      cases hlt : strLess (asciiToLower k2) (asciiToLower k1) with
      | false => rfl
      | true => exact absurd ((strLess_iff _ _).mp hlt) (not_lt.mpr hle)
    generalize sortedAliases asciiToLower ⟨name, d, m⟩ = keys at hperm2 hpw2
    have hlen := hperm2.length_eq
    have hnodup : keys.Nodup := hperm2.nodup_iff.mpr (by decide)
    match keys, hlen with
    | [x, y, z], _ =>
      have hx : x ∈ ["Z", "a", "M"] := hperm2.mem_iff.mp (by simp)
      have hy : y ∈ ["Z", "a", "M"] := hperm2.mem_iff.mp (by simp)
      have hz2 : z ∈ ["Z", "a", "M"] := hperm2.mem_iff.mp (by simp)
      simp only [List.mem_cons, List.mem_singleton, List.not_mem_nil, or_false] at hx hy hz2
      rcases hx with rfl | rfl | rfl <;> rcases hy with rfl | rfl | rfl <;>
        rcases hz2 with rfl | rfl | rfl <;>
        first
          | rfl
          | exact absurd hnodup (by decide)
          | exact absurd hpw2 (by decide)

/-- C7: the loop body stores, for the command, the row whose label is two
spaces and a backslash, the command's name and then, when its params are not
empty, one space and the params (nothing otherwise), and whose description is
the command's `Desc`; and for each alias key rows are built for, the row built
the same way from the trimmed key and the alias's own descriptor. With the params
`[N]` the label of `cmdname` is `  \cmdname [N]`, with empty params it is
`  \cmdname`, without a trailing space. -/
theorem Listing_row_label_and_description :
    (∀ (ToLower : String → String) (pkg : Pkg) (acc : List (List String) × Int) (c : Metacmd),
      (cmdStep ToLower pkg acc c).1
        = acc.1 ++
            ["  \\" ++ (pkg.cmds c).Name
                ++ (if (pkg.cmds c).Desc.Params = "" then "" else " " ++ (pkg.cmds c).Desc.Params),
              (pkg.cmds c).Desc.Desc] ::
            (sortedAliases ToLower (pkg.cmds c)).map fun key =>
              ["  \\" ++ TrimSpace key
                  ++ (if (mapIndex (pkg.cmds c).Aliases key).Params = "" then ""
                      else " " ++ (mapIndex (pkg.cmds c).Aliases key).Params),
                (mapIndex (pkg.cmds c).Aliases key).Desc])
    ∧ (∀ d : Desc, optText d = (d.Desc, if d.Params = "" then "" else " " ++ d.Params))
    ∧ (buildRows asciiToLower (oneCommand ⟨"cmdname", ⟨"show N", "[N]"⟩, []⟩)).1 "General"
        = [["  \\cmdname [N]", "show N"]]
    ∧ (buildRows asciiToLower (oneCommand ⟨"cmdname", ⟨"show", ""⟩, []⟩)).1 "General"
        = [["  \\cmdname", "show"]] := by
  have hopt : ∀ d : Desc, optText d = (d.Desc, if d.Params = "" then "" else " " ++ d.Params) := by
    intro d
    unfold optText
    by_cases h : d.Params = ""
    · simp [h]
    · simp [h]
  refine ⟨?_, hopt, by decide, by decide⟩
  intro ToLower pkg acc c
  rw [cmdStep_eq]
  simp only [cmdRows, rowOf, hopt]

/-- C8: for a section of the section order under which no command is registered
(`sectMap` gives the empty list, as it does for a key it does not hold), the
writes of `Listing` are those of the second pass over the sections before it,
then the section's heading line, then at once the blank line, then those of the
second pass over the sections after it. -/
theorem Listing_empty_section_heading_then_blank (ToLower : String → String) (pkg : Pkg)
    (pre : List Section) (sec : Section) (post : List Section)
    (horder : pkg.SectionOrder = pre ++ sec :: post) (hempty : pkg.sectMap sec = []) :
    ∃ before after : List String,
      emit recordWriter (buildRows ToLower pkg).1 (buildRows ToLower pkg).2 pre [] = some before
      ∧ emit recordWriter (buildRows ToLower pkg).1 (buildRows ToLower pkg).2 post [] = some after
      ∧ Listing ToLower pkg recordWriter [] = some (before ++ [sec ++ "\n", "\n"] ++ after) := by
  have hpre : ∀ s ∈ pre, s ∈ pkg.SectionOrder := by
    intro s hs
    rw [horder]
    exact List.mem_append_left _ hs
  have hpost : ∀ s ∈ post, s ∈ pkg.SectionOrder := by
    intro s hs
    rw [horder]
    exact List.mem_append_right _ (List.mem_cons_of_mem _ hs)
  have hsec : sec ∈ pkg.SectionOrder := by
    rw [horder]
    exact List.mem_append_right _ (List.mem_cons_self _ _)
  have hblock : blockLines (buildRows ToLower pkg).1 (buildRows ToLower pkg).2 sec
      = [sec ++ "\n", "\n"] := by
    simp [blockLines, buildRows_fst, hsec, sectionRows, hempty]
  refine ⟨_, _,
    emit_eq recordWriter _ _ pre []
      (fun s hs row hrow => isRow_buildRows ToLower pkg s (hpre s hs) row hrow),
    emit_eq recordWriter _ _ post []
      (fun s hs row hrow => isRow_buildRows ToLower pkg s (hpost s hs) row hrow), ?_⟩
  rw [Listing_eq, horder]
  simp only [writeAll_record, List.nil_append, List.flatMap_append, List.flatMap_cons, hblock,
    List.append_assoc]

/-- Witness of C8: the section Help of `oneCommand`, which has no command. -/
theorem Listing_empty_section_heading_then_blank_witness :
    ((oneCommand ⟨"go", ⟨"execute", ""⟩, []⟩).SectionOrder = ["General"] ++ "Help" :: []
      ∧ (oneCommand ⟨"go", ⟨"execute", ""⟩, []⟩).sectMap "Help" = [])
    ∧ ∃ before after : List String,
        emit recordWriter (buildRows asciiToLower (oneCommand ⟨"go", ⟨"execute", ""⟩, []⟩)).1
          (buildRows asciiToLower (oneCommand ⟨"go", ⟨"execute", ""⟩, []⟩)).2 ["General"] []
            = some before
        ∧ emit recordWriter (buildRows asciiToLower (oneCommand ⟨"go", ⟨"execute", ""⟩, []⟩)).1
          (buildRows asciiToLower (oneCommand ⟨"go", ⟨"execute", ""⟩, []⟩)).2 [] [] = some after
        ∧ Listing asciiToLower (oneCommand ⟨"go", ⟨"execute", ""⟩, []⟩) recordWriter []
            = some (before ++ ["Help" ++ "\n", "\n"] ++ after) :=
  ⟨⟨rfl, rfl⟩,
    Listing_empty_section_heading_then_blank asciiToLower
      (oneCommand ⟨"go", ⟨"execute", ""⟩, []⟩) ["General"] "Help" [] rfl rfl⟩

/-- C9: the writes of `Listing` are, for the sections of the section order and
in that order, the heading line, the lines of the rows stored for the section
and one blank line, and nothing else; on the sink that keeps the bytes the
output is the concatenation of these blocks. The blocks follow the section
order, which `sectMap` and `cmds` do not enter. -/
theorem Listing_output_is_blocks_in_section_order (ToLower : String → String) (pkg : Pkg) :
    Listing ToLower pkg recordWriter []
        = some (pkg.SectionOrder.flatMap fun sec =>
            [sec ++ "\n"]
              ++ ((buildRows ToLower pkg).1 sec).map (rowLine (buildRows ToLower pkg).2)
              ++ ["\n"])
    ∧ Listing ToLower pkg bufferWriter ""
        = some (String.join (pkg.SectionOrder.map fun sec =>
            sec ++ "\n"
              ++ String.join (((buildRows ToLower pkg).1 sec).map
                  (rowLine (buildRows ToLower pkg).2))
              ++ "\n")) := by
  constructor
  · rw [Listing_eq, writeAll_record, List.nil_append]
    rfl
  · rw [Listing_eq, writeAll_buffer, join_flatMap]
    simp only [join_blockLines, String.empty_append]

/-- C10 fails on the code: a command with the two aliases `A` and `a`, neither
silent. The two entry lists are the same map visited by `range` in the two
possible orders, and the outputs of `Listing` differ in the order of the two
alias rows. -/
theorem Listing_output_depends_on_range_order :
    ([("A", ⟨"upper", ""⟩), ("a", ⟨"lower", ""⟩)] : List (String × Desc)).Perm
        [("a", ⟨"lower", ""⟩), ("A", ⟨"upper", ""⟩)]
    ∧ Listing asciiToLower
        (oneCommand ⟨"x", ⟨"cmd", ""⟩, [("A", ⟨"upper", ""⟩), ("a", ⟨"lower", ""⟩)]⟩)
        bufferWriter ""
        = some "General\n  \\x  cmd\n  \\A  upper\n  \\a  lower\n\nHelp\n\n"
    ∧ Listing asciiToLower
        (oneCommand ⟨"x", ⟨"cmd", ""⟩, [("a", ⟨"lower", ""⟩), ("A", ⟨"upper", ""⟩)]⟩)
        bufferWriter ""
        = some "General\n  \\x  cmd\n  \\a  lower\n  \\A  upper\n\nHelp\n\n" := by
  refine ⟨List.Perm.swap _ _ _, by decide, by decide⟩

/-! ## Further lemmas -/

theorem spaces_succ (n : Nat) : spaces (n + 1) = " " ++ spaces n :=
  join_replicate_succ n " "

theorem spaces_eq_mk (n : Nat) : spaces n = String.mk (List.replicate n ' ') := by
  induction n with
  | zero => rfl
  | succ k ih =>
    rw [spaces_succ, ih]
    rfl

theorem mapIndex_of_mem (m : List (String × Desc)) (hkeys : (m.map Prod.fst).Nodup)
    (k : String) (d : Desc) (hmem : (k, d) ∈ m) : mapIndex m k = d := by
  have h : m.lookup k = some d := by
    induction m with
    | nil => cases hmem
    | cons e es ih =>
      obtain ⟨a, b⟩ := e
      simp only [List.map_cons, List.nodup_cons] at hkeys
      rcases List.mem_cons.mp hmem with heq | hin
      · have ha : k = a := congrArg Prod.fst heq
        have hb : d = b := congrArg Prod.snd heq
        subst ha
        subst hb
        simp [List.lookup]
      · have hne : k ≠ a := by
          intro hka
          apply hkeys.1
          rw [← hka]
          exact List.mem_map.mpr ⟨(k, d), hin, rfl⟩
        have hbeq : (k == a) = false := by simpa using hne
        simp only [List.lookup, hbeq]
        exact ih hkeys.2 hin
  simp [mapIndex, h]

/-! ## Padding, alias labels, row order and section order -/

/-- C17: `add a b c pad` returns the list `a` with the one row `[b, c]` appended
at the end, so the earlier rows are unchanged and the length grows by one, and
the integer that is the maximum of `pad` and `len b`, which is smaller neither
than `pad` nor than `len b`. -/
theorem add_appends_row_and_takes_max (a : List (List String)) (b c : String) (pad : Int) :
    (add a b c pad).1 = a ++ [[b, c]]
    ∧ (add a b c pad).1.length = a.length + 1
    ∧ (add a b c pad).1.take a.length = a
    ∧ (add a b c pad).1.getLast? = some [b, c]
    ∧ (add a b c pad).2 = Max.max pad (len b)
    ∧ (add a b c pad).2 = max pad (len b)
    ∧ pad ≤ (add a b c pad).2
    ∧ len b ≤ (add a b c pad).2 := by
  have h2 : (add a b c pad).2 = Max.max pad (len b) := max_eq_max pad (len b)
  refine ⟨rfl, ?_, ?_, ?_, h2, rfl, ?_, ?_⟩
  · simp [add]
  · simp [add]
  · simp [add]
  · rw [h2]; exact le_max_left _ _
  · rw [h2]; exact le_max_right _ _

/-- C14: for a string `s` and a width `l` with `len s ≤ l`, `rpad s l` returns
`s` followed by `l - len s` space characters and nothing else; the result has
byte length `l` and `s` is its prefix; and `rpad s (len s)` is `s`. -/
theorem rpad_pads_with_spaces_to_width (s : String) (l : Int) (h : len s ≤ l) :
    rpad s l = some (s ++ String.mk (List.replicate (l - len s).toNat ' '))
    ∧ len (s ++ String.mk (List.replicate (l - len s).toNat ' ')) = l
    ∧ s.data <+: (s ++ String.mk (List.replicate (l - len s).toNat ' ')).data
    ∧ rpad s (len s) = some s := by
  refine ⟨?_, ?_, ?_, ?_⟩
  · rw [rpad_of_le s l h, spaces_eq_mk]
  · rw [← spaces_eq_mk]
    exact len_rpad s l h
  · rw [String.data_append]
    exact List.prefix_append _ _
  · rw [rpad_of_le s (len s) (le_refl _)]
    simp [spaces, String.join]

/-- Witness of C14: the label of `\?` padded to the width 5. -/
theorem rpad_pads_with_spaces_to_width_witness :
    len "  \\?" ≤ 5
    ∧ (rpad "  \\?" 5 = some ("  \\?" ++ String.mk (List.replicate (5 - len "  \\?").toNat ' '))
      ∧ len ("  \\?" ++ String.mk (List.replicate (5 - len "  \\?").toNat ' ')) = 5
      ∧ ("  \\?" : String).data
          <+: ("  \\?" ++ String.mk (List.replicate (5 - len "  \\?").toNat ' ')).data
      ∧ rpad "  \\?" (len "  \\?") = some "  \\?") :=
  ⟨by decide, rpad_pads_with_spaces_to_width "  \\?" 5 (by decide)⟩

/-- C15: every row stored for any section is a pair of a label and a
description whose label is no longer than the final pad width, so the repeat
count `plen - len label` is not negative and `rpad` returns the padded label
instead of panicking; and `Listing` returns on every sink. -/
theorem Listing_never_pads_below_label (ToLower : String → String) (pkg : Pkg)
    (sec : Section) (row : List String) (hrow : row ∈ (buildRows ToLower pkg).1 sec) :
    (∃ label desc,
      row = [label, desc]
      ∧ len label ≤ (buildRows ToLower pkg).2
      ∧ 0 ≤ (buildRows ToLower pkg).2 - len label
      ∧ Repeat " " ((buildRows ToLower pkg).2 - len label)
          = some (spaces ((buildRows ToLower pkg).2 - len label).toNat)
      ∧ rpad label (buildRows ToLower pkg).2
          = some (label ++ spaces ((buildRows ToLower pkg).2 - len label).toNat))
    ∧ ∀ (σ : Type) (w : Writer σ) (st : σ), (Listing ToLower pkg w st).isSome = true := by
  constructor
  · have hsec : sec ∈ pkg.SectionOrder := by
      by_contra hn
      rw [buildRows_fst, if_neg hn] at hrow
      cases hrow
    obtain ⟨label, desc, rfl, hle⟩ := isRow_buildRows ToLower pkg sec hsec row hrow
    refine ⟨label, desc, rfl, hle, by omega, ?_, rpad_of_le label _ hle⟩
    have h0 : ¬ ((buildRows ToLower pkg).2 - len label < 0) := by omega
    simp [Repeat, h0, spaces]
  · intro σ w st
    rw [Listing_eq]
    rfl

/-- Witness of C15: the row of `?` under Help in `twoSections "gofurther"`. -/
theorem Listing_never_pads_below_label_witness :
    ["  \\?", "help"] ∈ (buildRows asciiToLower (twoSections "gofurther")).1 "Help"
    ∧ rpad "  \\?" (buildRows asciiToLower (twoSections "gofurther")).2 ≠ none := by
  refine ⟨by decide, ?_⟩
  obtain ⟨label, desc, hrow, _, _, _, hpad⟩ :=
    (Listing_never_pads_below_label asciiToLower (twoSections "gofurther") "Help"
      ["  \\?", "help"] (by decide)).1
  have hl : "  \\?" = label := (List.cons.inj hrow).1
  rw [hl, hpad]
  exact Option.some_ne_none _

/-- C13: the rows stored for a section of the section order are, for the
commands of the section in the order in which `sectMap` holds them, the
command's own row at once followed by the rows of its listed aliases (the keys
of `sortedAliases`, which are those of the aliases that are not silent), before
the row of the next command. -/
theorem Listing_rows_follow_sectMap_order (ToLower : String → String) (pkg : Pkg)
    (sec : Section) (hsec : sec ∈ pkg.SectionOrder) :
    (buildRows ToLower pkg).1 sec
      = (pkg.sectMap sec).flatMap fun c =>
          [rowOf (pkg.cmds c).Name (pkg.cmds c).Desc]
            ++ (sortedAliases ToLower (pkg.cmds c)).map
                fun key => rowOf (TrimSpace key) (mapIndex (pkg.cmds c).Aliases key) := by
  rw [buildRows_fst, if_pos hsec]
  rfl

/-- Witness of C13: the section General of `twoCommands`, which holds the
commands `quit` and `go` in this order, each with listed aliases: the rows are
that of `quit`, those of its aliases `exit` and `Q`, then that of `go` and that
of its alias `g`. -/
theorem Listing_rows_follow_sectMap_order_witness :
    "General" ∈ twoCommands.SectionOrder
    ∧ (buildRows asciiToLower twoCommands).1 "General"
        = (twoCommands.sectMap "General").flatMap (fun c =>
            [rowOf (twoCommands.cmds c).Name (twoCommands.cmds c).Desc]
              ++ (sortedAliases asciiToLower (twoCommands.cmds c)).map
                  fun key => rowOf (TrimSpace key) (mapIndex (twoCommands.cmds c).Aliases key))
    ∧ (twoCommands.sectMap "General").flatMap (fun c =>
          [rowOf (twoCommands.cmds c).Name (twoCommands.cmds c).Desc]
            ++ (sortedAliases asciiToLower (twoCommands.cmds c)).map
                fun key => rowOf (TrimSpace key) (mapIndex (twoCommands.cmds c).Aliases key))
        = [["  \\quit", "leave"], ["  \\exit", "leave now"], ["  \\Q", "leave"],
           ["  \\go [N]", "execute"], ["  \\g", "execute"]] :=
  ⟨by decide, Listing_rows_follow_sectMap_order asciiToLower twoCommands "General" (by decide),
    by decide⟩

/-- C12: for an alias `key` with descriptor `desc` that is not silent, in the
alias map of a command (a map: its keys are pairwise distinct), the lookup under
the untrimmed key gives `desc`; the key is among those rows are built for; the
row built for a key has the trimmed key as the name in its label and the
description and params found under the untrimmed key; and the width carried on
is the maximum of the width before, the length of the command's label and the
lengths of these trimmed labels, so it is at least the length of the trimmed
label of `key`. -/
theorem Listing_alias_label_is_trimmed_key (ToLower : String → String) (pkg : Pkg)
    (acc : List (List String) × Int) (c : Metacmd) (key : String) (desc : Desc)
    (hkeys : ((pkg.cmds c).Aliases.map Prod.fst).Nodup)
    (hmem : (key, desc) ∈ (pkg.cmds c).Aliases)
    (hns : ¬ (desc.Desc = "" ∧ desc.Params = "")) :
    mapIndex (pkg.cmds c).Aliases key = desc
    ∧ key ∈ sortedAliases ToLower (pkg.cmds c)
    ∧ (cmdStep ToLower pkg acc c).1
        = acc.1 ++ ["  \\" ++ (pkg.cmds c).Name ++ (optText (pkg.cmds c).Desc).2,
                    (optText (pkg.cmds c).Desc).1] ::
            (sortedAliases ToLower (pkg.cmds c)).map (fun k =>
              ["  \\" ++ TrimSpace k ++ (optText (mapIndex (pkg.cmds c).Aliases k)).2,
               (optText (mapIndex (pkg.cmds c).Aliases k)).1])
    ∧ ["  \\" ++ TrimSpace key ++ (optText desc).2, desc.Desc] ∈ (cmdStep ToLower pkg acc c).1
    ∧ (cmdStep ToLower pkg acc c).2
        = (sortedAliases ToLower (pkg.cmds c)).foldl
            (fun p k => Max.max p
              (len ("  \\" ++ TrimSpace k ++ (optText (mapIndex (pkg.cmds c).Aliases k)).2)))
            (Max.max acc.2
              (len ("  \\" ++ (pkg.cmds c).Name ++ (optText (pkg.cmds c).Desc).2)))
    ∧ len ("  \\" ++ TrimSpace key ++ (optText desc).2) ≤ (cmdStep ToLower pkg acc c).2 := by
  have hidx := mapIndex_of_mem (pkg.cmds c).Aliases hkeys key desc hmem
  have hin : key ∈ sortedAliases ToLower (pkg.cmds c) := by
    rw [(sortedAliases_perm ToLower (pkg.cmds c)).mem_iff, List.mem_map]
    exact ⟨(key, desc), List.mem_filter.mpr ⟨hmem, (not_silent_iff desc).mpr hns⟩, rfl⟩
  have hrows : (cmdStep ToLower pkg acc c).1
      = acc.1 ++ ["  \\" ++ (pkg.cmds c).Name ++ (optText (pkg.cmds c).Desc).2,
                  (optText (pkg.cmds c).Desc).1] ::
          (sortedAliases ToLower (pkg.cmds c)).map fun k =>
            ["  \\" ++ TrimSpace k ++ (optText (mapIndex (pkg.cmds c).Aliases k)).2,
             (optText (mapIndex (pkg.cmds c).Aliases k)).1] := by
    rw [cmdStep_eq]
    rfl
  have hrowmem : ["  \\" ++ TrimSpace key ++ (optText desc).2, desc.Desc]
      ∈ (cmdStep ToLower pkg acc c).1 := by
    rw [hrows]
    refine List.mem_append_right _ (List.mem_cons_of_mem _ (List.mem_map.mpr ⟨key, hin, ?_⟩))
    have hd : (optText desc).1 = desc.Desc := by
      unfold optText
      split <;> rfl
    rw [hidx, hd]
  refine ⟨hidx, hin, hrows, hrowmem, ?_, ?_⟩
  · rw [cmdStep_eq]
    simp only [cmdRows, padAfter, List.foldl_cons, List.foldl_map, rowOf, List.headD_cons,
      max_eq_max]
  · have hle := len_le_padAfter acc.2 (cmdRows ToLower (pkg.cmds c))
      (rowOf (TrimSpace key) (mapIndex (pkg.cmds c).Aliases key))
      (List.mem_cons_of_mem _ (List.mem_map.mpr ⟨key, hin, rfl⟩))
    rw [cmdStep_eq]
    rw [hidx] at hle
    exact hle

/-- Witness of C12: the alias stored under the key ` g ` (with a blank on either
side) of the command `go`. -/
theorem Listing_alias_label_is_trimmed_key_witness :
    ((((oneCommand ⟨"go", ⟨"run", ""⟩, [(" g ", ⟨"same", ""⟩)]⟩).cmds 0).Aliases.map
          Prod.fst).Nodup
      ∧ ((" g ", ⟨"same", ""⟩) : String × Desc)
          ∈ ((oneCommand ⟨"go", ⟨"run", ""⟩, [(" g ", ⟨"same", ""⟩)]⟩).cmds 0).Aliases
      ∧ ¬ ((⟨"same", ""⟩ : Desc).Desc = "" ∧ (⟨"same", ""⟩ : Desc).Params = ""))
    ∧ ["  \\g", "same"]
        ∈ (cmdStep asciiToLower (oneCommand ⟨"go", ⟨"run", ""⟩, [(" g ", ⟨"same", ""⟩)]⟩)
            ([], 0) 0).1 :=
  ⟨⟨by decide, by decide, by decide⟩,
    (Listing_alias_label_is_trimmed_key asciiToLower
      (oneCommand ⟨"go", ⟨"run", ""⟩, [(" g ", ⟨"same", ""⟩)]⟩) ([], 0) 0 " g " ⟨"same", ""⟩
      (by decide) (by decide) (by decide)).2.2.2.1⟩

/-! ## Headings -/

theorem append_newline_inj (a b : String) (h : a ++ "\n" = b ++ "\n") : a = b := by
  have hd := congrArg String.data h
  rw [String.data_append, String.data_append] at hd
  exact String.ext (List.append_cancel_right hd)

theorem newline_ne_heading (sec : Section) (hsec : sec ≠ "") : "\n" ≠ sec ++ "\n" := by
  intro h
  have h2 : "" ++ "\n" = sec ++ "\n" := by simpa using h
  exact hsec (append_newline_inj "" sec h2).symm

theorem rowLine_ne_heading (plen : Int) (name : String) (d : Desc) (sec : Section)
    (hsec : sec.data.head? ≠ some ' ') (hne : sec ≠ "") :
    rowLine plen (rowOf name d) ≠ sec ++ "\n" := by
  intro h
  have hd := congrArg (fun s : String => s.data.head?) h
  have hmark : ("  \\" : String).data = [' ', ' ', '\\'] := rfl
  have hsd : sec.data ≠ [] := by
    intro hnil
    exact hne (String.ext hnil)
  obtain ⟨x, xs, hx⟩ := List.exists_cons_of_ne_nil hsd
  simp only [rowLine, rowOf, List.headD_cons, String.data_append, hmark, List.cons_append,
    List.head?_cons, hx] at hd
  apply hsec
  rw [hx, List.head?_cons]
  exact hd.symm

theorem count_heading (sectionDescs : Section → List (List String)) (plen : Int)
    (sec : Section) (hne : sec ≠ "") (order : List Section)
    (hrows : ∀ s ∈ order, ∀ row ∈ sectionDescs s, rowLine plen row ≠ sec ++ "\n") :
    (order.flatMap (blockLines sectionDescs plen)).count (sec ++ "\n") = order.count sec := by
  induction order with
  | nil => rfl
  | cons s rest ih =>
    have hrest := ih (fun t ht => hrows t (List.mem_cons_of_mem _ ht))
    have hrow0 : ((sectionDescs s).map (rowLine plen)).count (sec ++ "\n") = 0 := by
      apply List.count_eq_zero_of_not_mem
      intro hmem
      obtain ⟨row, hrow, heq⟩ := List.mem_map.mp hmem
      exact hrows s (List.mem_cons_self _ _) row hrow heq
    have hblank : (["\n"] : List String).count (sec ++ "\n") = 0 := by
      apply List.count_eq_zero_of_not_mem
      intro hmem
      exact newline_ne_heading sec hne (List.mem_singleton.mp hmem).symm
    rw [List.flatMap_cons, List.count_append, hrest, blockLines, List.count_cons,
      List.count_append, hrow0, hblank, List.count_cons]
    by_cases hs : s = sec
    · subst hs
      simp
      omega
    · have hs2 : ¬ (s ++ "\n" = sec ++ "\n") := fun h => hs (append_newline_inj s sec h)
      simp [hs, hs2]

/-- C16: `SectionOrder` has eleven entries, no two equal, and is a rearrangement
of the eleven declared Section constants, so it holds each of them exactly once;
and with this section order the writes of `Listing` are eleven blocks, one for
each entry with its heading first, and the heading line of each declared section
is written exactly once. -/
theorem SectionOrder_lists_each_section_once :
    SectionOrder.length = 11
    ∧ declaredSections.length = 11
    ∧ declaredSections.Nodup
    ∧ SectionOrder.Nodup
    ∧ SectionOrder.Perm declaredSections
    ∧ (∀ sec ∈ declaredSections, SectionOrder.count sec = 1)
    ∧ ∀ (ToLower : String → String) (pkg : Pkg), pkg.SectionOrder = SectionOrder →
        ∃ lines : List String,
          Listing ToLower pkg recordWriter [] = some lines
          ∧ lines = SectionOrder.flatMap (fun sec =>
              (sec ++ "\n") ::
                (((buildRows ToLower pkg).1 sec).map (rowLine (buildRows ToLower pkg).2)
                  ++ ["\n"]))
          ∧ ∀ sec ∈ declaredSections, lines.count (sec ++ "\n") = 1 := by
  refine ⟨by decide, by decide, by decide, by decide, by decide, by decide, ?_⟩
  intro ToLower pkg horder
  refine ⟨_, by rw [Listing_eq, writeAll_record, List.nil_append], ?_, ?_⟩
  · rw [horder]
    rfl
  · intro sec hsec
    have hprop : sec ≠ "" ∧ sec.data.head? ≠ some ' ' ∧ SectionOrder.count sec = 1 := by
      revert sec
      decide
    rw [count_heading _ _ sec hprop.1, horder]
    · exact hprop.2.2
    · intro s hs row hrow
      rw [buildRows_fst, if_pos hs] at hrow
      obtain ⟨c, _, hc⟩ := List.mem_flatMap.mp hrow
      rcases List.mem_cons.mp hc with h | h
      · rw [h]
        exact rowLine_ne_heading _ _ _ sec hprop.2.1 hprop.1
      · obtain ⟨key, _, hkey⟩ := List.mem_map.mp h
        rw [← hkey]
        exact rowLine_ne_heading _ _ _ sec hprop.2.1 hprop.1

/-! ## Ties in the alias sort -/

theorem filter_sink {α β : Type} [DecidableEq β] (f : α → β) (less : α → α → Bool)
    (hless : ∀ a b, less a b = true → f a ≠ f b) (v : β) (x : α) (l : List α) :
    (sink less x l).filter (fun k => decide (f k = v))
      = (x :: l).filter (fun k => decide (f k = v)) := by
  induction l with
  | nil => rfl
  | cons y ys ih =>
    by_cases hxy : less x y = true
    · have hne := hless x y hxy
      simp only [sink, hxy, if_true]
      rw [List.filter_cons, ih]
      by_cases hx : f x = v
      · have hy : ¬ f y = v := fun h => hne (hx.trans h.symm)
        simp [List.filter_cons, hx, hy]
      · simp [List.filter_cons, hx]
    · simp only [sink, hxy]
      rfl

theorem filter_foldl_sink {α β : Type} [DecidableEq β] (f : α → β) (less : α → α → Bool)
    (hless : ∀ a b, less a b = true → f a ≠ f b) (v : β) (l acc : List α) :
    (l.foldl (fun sorted x => sink less x sorted) acc).filter (fun k => decide (f k = v))
      = (l.reverse ++ acc).filter (fun k => decide (f k = v)) := by
  induction l generalizing acc with
  | nil => rfl
  | cons x xs ih =>
    simp only [List.foldl_cons]
    rw [ih, List.filter_append, filter_sink f less hless, List.reverse_cons,
      List.append_assoc, List.filter_append]
    rfl

theorem filter_sortSlice {α β : Type} [DecidableEq β] (f : α → β) (less : α → α → Bool)
    (hless : ∀ a b, less a b = true → f a ≠ f b) (v : β) (l : List α) :
    (sortSlice less l).filter (fun k => decide (f k = v))
      = l.filter (fun k => decide (f k = v)) := by
  unfold sortSlice
  rw [List.filter_reverse, filter_foldl_sink f less hless, List.append_nil,
    List.filter_reverse, List.reverse_reverse]

theorem gapPass_short (less : String → String → Bool) (data : List String)
    (hlen : data.length < 7) : gapPass less data = data := by
  have h0 : data.length - 6 = 0 := by omega
  simp [gapPass, h0]

theorem sortSlice_short {α : Type} (less : α → α → Bool) (data : List α)
    (hlen : ¬ data.length > 1) : sortSlice less data = data := by
  match data, hlen with
  | [], _ => rfl
  | [x], _ => rfl
  | _ :: _ :: _, h => exact absurd (by simp) h

/-- C11, as stated, fails. Under the `sort.Slice` of Go 1.8 to 1.18, the seven
aliases collected as `B, b, c, d, e, f, a` come out as `a, b, B, c, d, e, f`:
the pass with gap 6 swaps `a` and `B`, and `B` then sinks no further than `b`.
Under the `sort.Slice` of Go 1.19 and later, the thirteen aliases collected as
`a, f, b, c, d, e, B, g, h, i, j, k, l` come out with `B` before `b`: the
partition around `c` swaps `f` and `B`. Either way the two keys with the
lowercase form `b` are listed in the order opposite to the one they were
collected in. -/
theorem sort_Slice_reverses_tied_aliases :
    collectAliases (aliasedCommand ["B", "b", "c", "d", "e", "f", "a"])
        = ["B", "b", "c", "d", "e", "f", "a"]
    ∧ sortSliceQuick (fun a b => strLess (asciiToLower a) (asciiToLower b))
          (collectAliases (aliasedCommand ["B", "b", "c", "d", "e", "f", "a"]))
        = some ["a", "b", "B", "c", "d", "e", "f"]
    ∧ (collectAliases (aliasedCommand ["B", "b", "c", "d", "e", "f", "a"])).filter
          (fun k => decide (asciiToLower k = "b")) = ["B", "b"]
    ∧ (["a", "b", "B", "c", "d", "e", "f"] : List String).filter
          (fun k => decide (asciiToLower k = "b")) = ["b", "B"]
    ∧ collectAliases
          (aliasedCommand ["a", "f", "b", "c", "d", "e", "B", "g", "h", "i", "j", "k", "l"])
        = ["a", "f", "b", "c", "d", "e", "B", "g", "h", "i", "j", "k", "l"]
    ∧ sortSlicePdq (fun a b => strLess (asciiToLower a) (asciiToLower b))
          (collectAliases
            (aliasedCommand ["a", "f", "b", "c", "d", "e", "B", "g", "h", "i", "j", "k", "l"]))
        = some ["a", "B", "b", "c", "d", "e", "f", "g", "h", "i", "j", "k", "l"]
    ∧ (collectAliases
          (aliasedCommand ["a", "f", "b", "c", "d", "e", "B", "g", "h", "i", "j", "k", "l"])).filter
          (fun k => decide (asciiToLower k = "b")) = ["b", "B"]
    ∧ (["a", "B", "b", "c", "d", "e", "f", "g", "h", "i", "j", "k", "l"] : List String).filter
          (fun k => decide (asciiToLower k = "b")) = ["B", "b"] := by
  refine ⟨by decide, by decide, by decide, by decide, by decide, by decide, by decide,
    by decide⟩

/-- C11, amended: for a command with fewer than seven aliases that are not
silent, `sort.Slice` is the plain insertion sort in the releases of Go written
out above, and the alias keys with any one lowercase form are listed in the
order in which they were collected from the alias map. -/
theorem sortedAliases_keeps_ties_below_seven (ToLower : String → String) (cmd : Cmd)
    (hlen : (collectAliases cmd).length < 7) :
    sortSliceQuick (fun a b => strLess (ToLower a) (ToLower b)) (collectAliases cmd)
        = some (sortedAliases ToLower cmd)
    ∧ sortSlicePdq (fun a b => strLess (ToLower a) (ToLower b)) (collectAliases cmd)
        = some (sortedAliases ToLower cmd)
    ∧ ∀ v : String,
        (sortedAliases ToLower cmd).filter (fun k => decide (ToLower k = v))
          = (collectAliases cmd).filter (fun k => decide (ToLower k = v)) := by
  have h12 : (collectAliases cmd).length ≤ 12 := by omega
  refine ⟨?_, ?_, ?_⟩
  · unfold sortSliceQuick sortedAliases
    rw [if_pos h12, gapPass_short _ _ hlen]
    by_cases h1 : (collectAliases cmd).length > 1
    · rw [if_pos h1]
    · rw [if_neg h1, sortSlice_short _ _ h1]
  · unfold sortSlicePdq sortedAliases
    rw [if_pos h12]
  · intro v
    unfold sortedAliases
    refine filter_sortSlice ToLower _ ?_ v _
    intro a b hab
    exact ne_of_lt ((strLess_iff _ _).mp hab)

/-- Witness of C11, amended: the aliases `A` and `a`, collected in this order. -/
theorem sortedAliases_keeps_ties_below_seven_witness :
    (collectAliases (aliasedCommand ["A", "a"])).length < 7
    ∧ (sortedAliases asciiToLower (aliasedCommand ["A", "a"])).filter
          (fun k => decide (asciiToLower k = "a"))
        = (collectAliases (aliasedCommand ["A", "a"])).filter
            (fun k => decide (asciiToLower k = "a")) :=
  ⟨by decide,
    (sortedAliases_keeps_ties_below_seven asciiToLower (aliasedCommand ["A", "a"])
      (by decide)).2.2 "a"⟩

end metacmd
